import Mathlib

/-!
Shallow embedding of `src/telebot.py` (class `TelegramBot`).

Python strings are modelled as `List Char` (the texts in scope are
ASCII, where `str.lower`, `str.strip`, `str.split` agree with the
ASCII-level models below); a chat's corpus file is its character
content, a missing file is `none : Option (List Char)`.
-/

namespace Telebot

/-- The ASCII whitespace characters that Python's `str.strip()` removes
and `str.split()` splits on. -/
def isPySpace (c : Char) : Bool :=
  c == ' ' || c == '\t' || c == '\n' || c == '\r' || c == '\x0b' || c == '\x0c'

/-- Python `s.strip()`. -/
def pyStrip (s : List Char) : List Char :=
  ((s.dropWhile isPySpace).reverse.dropWhile isPySpace).reverse

/-- Python `string.punctuation` (the 32 ASCII punctuation characters). -/
def punctuation : List Char :=
  ['!', '\x22', '#', '$', '%', '&', '\x27', '(', ')', '*', '+', ',', '-', '.', '/',
   ':', ';', '<', '=', '>', '?', '@', '[', '\\', ']', '^', '_', '\x60',
   '\x7b', '|', '\x7d', '~']

/-- Auxiliary for Python `str.split()` (split on whitespace runs,
producing no empty words); `acc` holds the current word reversed. -/
def splitWsAux : List Char → List Char → List (List Char)
  | [], acc => if acc.isEmpty then [] else [acc.reverse]
  | c :: rest, acc =>
    if isPySpace c then
      (if acc.isEmpty then splitWsAux rest [] else acc.reverse :: splitWsAux rest [])
    else splitWsAux rest (c :: acc)

/-- Python `s.split()`. -/
def pySplitWs (s : List Char) : List (List Char) := splitWsAux s []

/-- Split file text at newlines.  Iterating over a Python file yields
the lines with their trailing newline and no empty final piece; since
every consumer below strips each line and discards empty results, the
plain split used here is equivalent. -/
def splitOnNl : List Char → List (List Char)
  | [] => [[]]
  | c :: rest =>
    if c == '\n' then [] :: splitOnNl rest
    else
      match splitOnNl rest with
      | [] => [[c]]
      | l :: ls => (c :: l) :: ls

/-- One scan of Python `s.replace(pat, '')` (delete all non-overlapping
occurrences of `pat`, left to right).  `fuel` only bounds the
recursion; it is initialised to `s.length`, which suffices because
every step consumes at least one character of `s`. -/
def replaceAllGo (pat : List Char) : Nat → List Char → List Char
  | _, [] => []
  | 0, s => s
  | fuel + 1, c :: rest =>
    if pat <+: c :: rest then replaceAllGo pat fuel ((c :: rest).drop pat.length)
    else c :: replaceAllGo pat fuel rest

/-- Python `s.replace(pat, '')` for a non-empty pattern. -/
def replaceAll (pat s : List Char) : List Char :=
  if pat.isEmpty then s else replaceAllGo pat s.length s

/-- `dp[i][j]` of `TelegramBot.longest_common_substring`: the table is
filled with `dp[i][j] = dp[i-1][j-1] + 1` when `s1[i-1] == s2[j-1]` and
`0` otherwise, with zero borders (src/telebot.py:181-188). -/
def dpCell (s1 s2 : List Char) : Nat → Nat → Nat
  | 0, _ => 0
  | _ + 1, 0 => 0
  | i + 1, j + 1 =>
    match s1[i]?, s2[j]? with
    | some a, some b => if a = b then dpCell s1 s2 i j + 1 else 0
    | _, _ => 0

/-- The index pairs `(i, j)`, `1 ≤ i ≤ m`, `1 ≤ j ≤ n`, in the double
loop's row-major order. -/
def lcsCells (m n : Nat) : List (Nat × Nat) :=
  (List.range m).flatMap fun i => (List.range n).map fun j => (i + 1, j + 1)

/-- Loop body maintaining `(max_len, end_pos)`: both are updated only
on strict improvement `dp[i][j] > max_len` (src/telebot.py:189-191). -/
def lcsStep (s1 s2 : List Char) (st : Nat × Nat) (ij : Nat × Nat) : Nat × Nat :=
  if st.1 < dpCell s1 s2 ij.1 ij.2 then (dpCell s1 s2 ij.1 ij.2, ij.1) else st

/-- The final `(max_len, end_pos)` pair of the double loop. -/
def lcsScan (s1 s2 : List Char) : Nat × Nat :=
  (lcsCells s1.length s2.length).foldl (lcsStep s1 s2) (0, 0)

/-- `TelegramBot.longest_common_substring` (src/telebot.py:176-193):
`s1[end_pos - max_len:end_pos]` if `max_len > 0` else `""`. -/
def longest_common_substring (s1 s2 : List Char) : List Char :=
  if 0 < (lcsScan s1 s2).1 then
    (s1.drop ((lcsScan s1 s2).2 - (lcsScan s1 s2).1)).take (lcsScan s1 s2).1
  else []

/-- The 80% test `len(common) >= 0.8 * len(phr_word)` of
`find_similar_phrases` (src/telebot.py:229).  Python evaluates the
right side in double precision with `float(0.8) = (4/5)·(1 + 2⁻⁵⁴)`;
the relative error stays strictly below every half-ulp, so for word
lengths below 2⁵⁰ the comparison of an integer against the computed
double coincides exactly with the rational comparison used here. -/
def hit (msg_word phr_word : List Char) : Bool :=
  decide (4 * phr_word.length ≤ 5 * (longest_common_substring msg_word phr_word).length)

/-- `text.lower().translate(str.maketrans('', '', string.punctuation)).split()`
(src/telebot.py:213-215 and 221-223). -/
def cleanWords (s : List Char) : List (List Char) :=
  pySplitWs ((s.map Char.toLower).filter fun c => !(punctuation.contains c))

/-- The two inner loops of `find_similar_phrases` for one candidate
phrase (src/telebot.py:226-233): walk the message words in order; on the
first phrase word hit, append the phrase and leave the inner loop; the
word loop stops as soon as `phrase in matched_phrases`. -/
def msgLoop (phrase_words : List (List Char)) (phrase : List Char) :
    List (List Char) → List (List Char) → List (List Char)
  | [], matched => matched
  | w :: ws, matched =>
    let matched' := if phrase_words.any (fun pw => hit w pw) then matched ++ [phrase]
                    else matched
    if phrase ∈ matched' then matched' else msgLoop phrase_words phrase ws matched'

/-- `matched_phrases` as built by `find_similar_phrases` from the
message and the (stripped, non-empty) corpus phrases. -/
def findMatched (message : List Char) (phrases : List (List Char)) : List (List Char) :=
  phrases.foldl
    (fun matched phrase => msgLoop (cleanWords phrase) phrase (cleanWords message) matched) []

/-- `[line.strip() for line in f if line.strip()]` (src/telebot.py:205). -/
def corpusPhrases (fileLines : List (List Char)) : List (List Char) :=
  (fileLines.map pyStrip).filter fun l => !l.isEmpty

/-- `TelegramBot.find_similar_phrases` (src/telebot.py:195-238) on the
chat's corpus file (`none` models a missing file).  The final
`random.choice(matched_phrases)` is modelled by returning the whole
non-empty candidate list: the Python call returns `None` exactly when
this returns `none`, and otherwise some element of the returned list. -/
def find_similar_phrases (message : List Char) (file : Option (List Char)) :
    Option (List (List Char)) :=
  match file with
  | none => none
  | some text =>
    if (corpusPhrases (splitOnNl text)).isEmpty then none
    else if (findMatched message (corpusPhrases (splitOnNl text))).isEmpty then none
    else some (findMatched message (corpusPhrases (splitOnNl text)))

/-- `safe_chat_id = str(chat_number).replace('+', '').replace('-', '')`
(src/telebot.py:161 and, identically, 197): the corpus-file key used by
both `learn_phrase` and `find_similar_phrases`. -/
def learnKey (chat_number : List Char) : List Char :=
  replaceAll ['-'] (replaceAll ['+'] chat_number)

/-- `TelegramBot.learn_phrase` (src/telebot.py:159-174) acting on the
chat's corpus file `dict/{learnKey chat_number}_words.dat`: delete
every occurrence of `"/learn"` from the phrase, strip it, and when the
result is non-empty append it plus a newline (append mode creates a
missing file); when it is empty, return before touching the file. -/
def learn_phrase (phrase : List Char) (file : Option (List Char)) : Option (List Char) :=
  if (pyStrip (replaceAll "/learn".data phrase)).isEmpty then file
  else some (file.getD [] ++ pyStrip (replaceAll "/learn".data phrase) ++ ['\n'])

/-- `message.split(' ', 1)`, first stage: `none` when no space occurs. -/
def pySplitOnce (sep : Char) : List Char → Option (List Char × List Char)
  | [] => none
  | c :: rest =>
    if c == sep then some ([], rest)
    else
      match pySplitOnce sep rest with
      | none => none
      | some (a, b) => some (c :: a, b)

/-- `parts = message.split(' ', 1)` (src/telebot.py:244). -/
def parts (message : List Char) : List (List Char) :=
  match pySplitOnce ' ' message with
  | none => [message]
  | some (a, b) => [a, b]

/-- A reply of `process_message`: a fixed text, or one element drawn by
`random.choice` from the non-empty candidate list of the matcher. -/
inductive Reply where
  | fixed (text : List Char)
  | fromMatched (candidates : List (List Char))
deriving DecidableEq

def helpText : List Char :=
  ("Telebot - Simple Telegram Bot\nCommands:\n/help - Show help\n" ++
   "/learn <phrase> - Teach bot a phrase\n/start - Start bot").data

/-- `TelegramBot.process_message` (src/telebot.py:240-262) together
with its effect on the chat's corpus file. -/
def process_message (message : List Char) (file : Option (List Char)) :
    Option Reply × Option (List Char) :=
  match message with
  | '/' :: _ =>
    if ((parts message).headD []).map Char.toLower = "/help".data then
      (some (.fixed helpText), file)
    else if ((parts message).headD []).map Char.toLower = "/stop".data then
      (some (.fixed "Bot stopped".data), file)
    else if ((parts message).headD []).map Char.toLower = "/start".data then
      (some (.fixed "Bot started!".data), file)
    else if ((parts message).headD []).map Char.toLower = "/learn".data
            ∧ 1 < (parts message).length then
      (some (.fixed "Phrase learned!".data), learn_phrase ((parts message).getD 1 []) file)
    else
      match find_similar_phrases message file with
      | none => (none, file)
      | some cands => (some (.fromMatched cands), file)
  | _ =>
    match find_similar_phrases message file with
    | none => (none, file)
    | some cands => (some (.fromMatched cands), file)

/-! ### `extract_message_info` (claim C3) -/

structure FromUser where
  first_name : Option (List Char)
  last_name : Option (List Char)
  uid : Option Int
deriving DecidableEq

structure ChatObj where
  id : Int
  ctype : Option (List Char)   -- the JSON key 'type'
  title : Option (List Char)
deriving DecidableEq

structure MessageObj where
  chat : ChatObj
  from_user : Option FromUser  -- the JSON key 'from'; `none` models a missing key
  text : Option (List Char)
deriving DecidableEq

structure UpdateObj where
  update_id : Int
  message : Option MessageObj
deriving DecidableEq

inductive PyError where
  | unboundLocal
deriving DecidableEq

structure MsgInfo where
  text : List Char
  chat_id : Int
  chat_name : List Char
  chat_number : Int
deriving DecidableEq

/-- `f"User {from_user.get('id', '')}"` (src/telebot.py:133 and 139). -/
def userFallback (fu : FromUser) : List Char :=
  "User ".data ++ (match fu.uid with | some n => (toString n).data | none => [])

/-- `TelegramBot.extract_message_info` (src/telebot.py:112-142).  In
the group/supergroup branch the locals `first_name`/`last_name` are
never assigned, yet line 139 reads them to build the log line before
the tuple is returned, so Python raises `UnboundLocalError` there (the
group `chat_name` computed on line 129 is dead at that point and is
elided); the side-effecting `log_event` write is not modelled. -/
def extract_message_info (update : UpdateObj) : Except PyError (Option MsgInfo) :=
  match update.message with
  | none => .ok none
  | some message =>
    match message.text with
    | none => .ok none
    | some text =>
      let chat := message.chat
      let chat_type := chat.ctype.getD "private".data
      if chat_type = "group".data ∨ chat_type = "supergroup".data then
        .error .unboundLocal
      else
        let fu := message.from_user.getD ⟨none, none, none⟩
        let first_name := fu.first_name.getD []
        let last_name := fu.last_name.getD []
        let chat_name :=
          if (pyStrip (first_name ++ [' '] ++ last_name)).isEmpty then userFallback fu
          else pyStrip (first_name ++ [' '] ++ last_name)
        .ok (some ⟨text, chat.id, chat_name, chat.id⟩)

/-! ### `get_updates` (claim C8) -/

structure UpdateRec where
  update_id : Int
deriving DecidableEq

structure ApiBody where
  ok : Bool               -- truthiness of data.get('ok')
  result : List UpdateRec -- data.get('result'); [] also covers a missing key
deriving DecidableEq

/-- Outcome of the HTTP exchange inside `get_updates`: a
`requests.RequestException` (network error, or `raise_for_status` on a
non-2xx reply), a `json.JSONDecodeError` from `response.json()`, or a
decoded body. -/
inductive HttpResult where
  | requestError
  | jsonError
  | success (body : ApiBody)
deriving DecidableEq

structure GetUpdatesOut where
  requestedOffset : Int          -- the 'offset' request parameter sent
  ret : Option (List UpdateRec)  -- return value (`none` models Python None)
  newOffset : Int                -- self.offset after the call
deriving DecidableEq

/-- `TelegramBot.get_updates` (src/telebot.py:60-88) as a function of
the current cursor and the transport outcome: requests
`offset = self.offset + 1`; on `ok` with a non-empty `result` sets
`self.offset = updates[-1]['update_id']` and returns the updates; on
either caught exception (and on `ok` false or empty result) returns
`None` with the cursor untouched. -/
def get_updates (offset : Int) (resp : HttpResult) : GetUpdatesOut :=
  match resp with
  | .requestError => ⟨offset + 1, none, offset⟩
  | .jsonError => ⟨offset + 1, none, offset⟩
  | .success body =>
    if body.ok ∧ ¬body.result.isEmpty then
      { requestedOffset := offset + 1
        ret := some body.result
        newOffset := match body.result.getLast? with
                     | some u => u.update_id
                     | none => offset }
    else ⟨offset + 1, none, offset⟩

/-! ### startup of `run` (claim C9) -/

structure StartupEnv where
  lockExists : Bool                   -- os.path.exists('tmp/telebot.lock')
  lockRead : Except Unit (List Char)  -- reading the lock file may raise
  isAlive : List Char → Bool          -- os.path.exists(f'/proc/{pid}')
  curPid : List Char                  -- str(os.getpid())
  lockWriteOk : Bool                  -- writing the lock file may raise IOError

inductive StartupOutcome where
  | refusedAlreadyRunning             -- returns before writing the lock or polling
  | fatalLockWrite                    -- "Cannot create lock file": returns
  | polling (lockContent : List Char) -- lock written with this pid, main loop entered
deriving DecidableEq

/-- The liveness test inside the `try` of `run`: read
`pid = f.read().strip()` and ask whether `/proc/{pid}` exists; any
exception in the block is swallowed by the bare `except: pass`,
i.e. counts as not alive. -/
def lockAliveCheck (env : StartupEnv) : Bool :=
  match env.lockRead with
  | .ok content => env.isAlive (pyStrip content)
  | .error _ => false

/-- The startup phase of `TelegramBot.run` (src/telebot.py:264-289):
if the lock file exists and the recorded process is alive, refuse;
otherwise (over)write the lock with the current pid and enter the
polling loop, unless the write itself fails. -/
def runStartup (env : StartupEnv) : StartupOutcome :=
  if env.lockExists && lockAliveCheck env then
    .refusedAlreadyRunning
  else if env.lockWriteOk then .polling env.curPid
  else .fatalLockWrite

/-- The sanitization that claim C4 attributes to `learn_phrase`,
written from the spec's words (keep only `[A-Za-z0-9 _-]`, fall back to
`"unknown"` when nothing is left) for comparison with `learnKey`; in
the source this allow-list rule appears only in `log_event`
(src/telebot.py:147-149). -/
def specLearnKey (chat_number : List Char) : List Char :=
  if (chat_number.filter fun c => c.isAlphanum || c == ' ' || c == '_' || c == '-').isEmpty
  then "unknown".data
  else chat_number.filter fun c => c.isAlphanum || c == ' ' || c == '_' || c == '-'

/-! ### Correctness of `longest_common_substring` (claim C1)

`dpCell s1 s2 i j` is the length of the longest common suffix of the
prefixes `s1[:i]` and `s2[:j]`; the scan keeps the maximal cell value
together with the row of a cell attaining it. -/

theorem dpCell_le (s1 s2 : List Char) : ∀ i j, dpCell s1 s2 i j ≤ min i j := by
  intro i
  induction i with
  | zero => intro j; simp [dpCell]
  | succ i ih =>
    intro j
    cases j with
    | zero => simp [dpCell]
    | succ j =>
      have h := ih j
      simp only [dpCell]
      cases h1 : s1[i]? with
      | none => simp
      | some a =>
        cases h2 : s2[j]? with
        | none => simp
        | some b =>
          show (if a = b then dpCell s1 s2 i j + 1 else 0) ≤ min (i + 1) (j + 1)
          split <;> omega

theorem dpCell_suffix (s1 s2 : List Char) :
    ∀ i j, i ≤ s1.length → j ≤ s2.length →
      (s1.take i).drop (i - dpCell s1 s2 i j) = (s2.take j).drop (j - dpCell s1 s2 i j) := by
  intro i
  induction i with
  | zero =>
    intro j _ _
    have hr : (s2.take j).drop j = [] := by
      apply List.drop_eq_nil_of_le
      rw [List.length_take]
      omega
    simp [dpCell, hr]
  | succ i ih =>
    intro j hi hj
    cases j with
    | zero =>
      have hl : (s1.take (i + 1)).drop (i + 1) = [] := by
        apply List.drop_eq_nil_of_le
        rw [List.length_take]
        omega
      simp [dpCell, hl]
    | succ j =>
      have hi' : i < s1.length := hi
      have hj' : j < s2.length := hj
      have h1 : s1[i]? = some s1[i] := List.getElem?_eq_getElem hi'
      have h2 : s2[j]? = some s2[j] := List.getElem?_eq_getElem hj'
      have t1 : s1.take (i + 1) = s1.take i ++ [s1[i]] := by
        rw [List.take_succ, h1]
        rfl
      have t2 : s2.take (j + 1) = s2.take j ++ [s2[j]] := by
        rw [List.take_succ, h2]
        rfl
      by_cases hab : s1[i] = s2[j]
      · have hd : dpCell s1 s2 (i + 1) (j + 1) = dpCell s1 s2 i j + 1 := by
          simp [dpCell, h1, h2, hab]
        have hdle := dpCell_le s1 s2 i j
        rw [hd, t1, t2]
        have e1 : i + 1 - (dpCell s1 s2 i j + 1) = i - dpCell s1 s2 i j := by omega
        have e2 : j + 1 - (dpCell s1 s2 i j + 1) = j - dpCell s1 s2 i j := by omega
        rw [e1, e2]
        rw [List.drop_append_of_le_length (by rw [List.length_take]; omega)]
        rw [List.drop_append_of_le_length (by rw [List.length_take]; omega)]
        rw [ih j (le_of_lt hi') (le_of_lt hj'), hab]
      · have hd : dpCell s1 s2 (i + 1) (j + 1) = 0 := by
          simp [dpCell, h1, h2, hab]
        have hl : (s1.take (i + 1)).drop (i + 1) = [] := by
          apply List.drop_eq_nil_of_le
          rw [List.length_take]
          omega
        have hr : (s2.take (j + 1)).drop (j + 1) = [] := by
          apply List.drop_eq_nil_of_le
          rw [List.length_take]
          omega
        rw [hd]
        simpa using hl.trans hr.symm

theorem concat_suffix_concat {α : Type} {t l : List α} {c a : α}
    (h : t ++ [c] <:+ l ++ [a]) : c = a ∧ t <:+ l := by
  obtain ⟨u, hu⟩ := h
  rw [← List.append_assoc] at hu
  obtain ⟨h1, h2⟩ := List.append_inj' hu rfl
  refine ⟨by simpa using h2, u, h1⟩

theorem dpCell_max (s1 s2 : List Char) :
    ∀ i j, i ≤ s1.length → j ≤ s2.length → ∀ t : List Char,
      t <:+ s1.take i → t <:+ s2.take j → t.length ≤ dpCell s1 s2 i j := by
  intro i
  induction i with
  | zero =>
    intro j _ _ t ht1 _
    simp only [List.take_zero, List.suffix_nil] at ht1
    simp [ht1]
  | succ i ih =>
    intro j hi hj t ht1 ht2
    cases j with
    | zero =>
      simp only [List.take_zero, List.suffix_nil] at ht2
      simp [ht2]
    | succ j =>
      rcases t.eq_nil_or_concat with rfl | ⟨t', c, rfl⟩
      · simp
      · rw [List.concat_eq_append] at *
        have hi' : i < s1.length := hi
        have hj' : j < s2.length := hj
        have h1 : s1[i]? = some s1[i] := List.getElem?_eq_getElem hi'
        have h2 : s2[j]? = some s2[j] := List.getElem?_eq_getElem hj'
        have t1 : s1.take (i + 1) = s1.take i ++ [s1[i]] := by
          rw [List.take_succ, h1]
          rfl
        have t2 : s2.take (j + 1) = s2.take j ++ [s2[j]] := by
          rw [List.take_succ, h2]
          rfl
        rw [t1] at ht1
        rw [t2] at ht2
        obtain ⟨hc1, ht1'⟩ := concat_suffix_concat ht1
        obtain ⟨hc2, ht2'⟩ := concat_suffix_concat ht2
        have hab : s1[i] = s2[j] := by rw [← hc1, ← hc2]
        have hd : dpCell s1 s2 (i + 1) (j + 1) = dpCell s1 s2 i j + 1 := by
          simp [dpCell, h1, h2, hab]
        have hrec := ih j (le_of_lt hi') (le_of_lt hj') t' ht1' ht2'
        rw [hd, List.length_append]
        simpa using hrec

theorem le_foldl_max_init (f : Nat × Nat → Nat) :
    ∀ (cells : List (Nat × Nat)) (init : Nat),
      init ≤ cells.foldl (fun m x => max m (f x)) init := by
  intro cells
  induction cells with
  | nil => intro init; simp
  | cons x cells ih =>
    intro init
    rw [List.foldl_cons]
    exact le_trans (le_max_left _ _) (ih _)

theorem le_foldl_max_mem (f : Nat × Nat → Nat) :
    ∀ (cells : List (Nat × Nat)) (init : Nat) (ij : Nat × Nat), ij ∈ cells →
      f ij ≤ cells.foldl (fun m x => max m (f x)) init := by
  intro cells
  induction cells with
  | nil => intro _ _ h; simp at h
  | cons x cells ih =>
    intro init ij h
    rw [List.foldl_cons]
    rcases List.mem_cons.mp h with rfl | h'
    · exact le_trans (le_max_right _ _) (le_foldl_max_init f cells _)
    · exact ih _ _ h'

theorem lcsStep_fst (s1 s2 : List Char) (st ij : Nat × Nat) :
    (lcsStep s1 s2 st ij).1 = max st.1 (dpCell s1 s2 ij.1 ij.2) := by
  unfold lcsStep
  split <;> omega

theorem lcsScan_fst_eq (s1 s2 : List Char) :
    ∀ (cells : List (Nat × Nat)) (st : Nat × Nat),
      (cells.foldl (lcsStep s1 s2) st).1
        = cells.foldl (fun m ij => max m (dpCell s1 s2 ij.1 ij.2)) st.1 := by
  intro cells
  induction cells with
  | nil => intro st; rfl
  | cons ij cells ih =>
    intro st
    rw [List.foldl_cons, List.foldl_cons, ih, lcsStep_fst]

theorem lcsScan_snd_inv (s1 s2 : List Char) :
    ∀ (cells : List (Nat × Nat)),
      (∀ ij ∈ cells, ij.1 ≤ s1.length ∧ ij.2 ≤ s2.length) →
      ∀ st : Nat × Nat,
      (st.1 = 0 ∨ ∃ j, st.2 ≤ s1.length ∧ j ≤ s2.length ∧ dpCell s1 s2 st.2 j = st.1) →
      ((cells.foldl (lcsStep s1 s2) st).1 = 0 ∨
        ∃ j, (cells.foldl (lcsStep s1 s2) st).2 ≤ s1.length ∧ j ≤ s2.length ∧
          dpCell s1 s2 (cells.foldl (lcsStep s1 s2) st).2 j
            = (cells.foldl (lcsStep s1 s2) st).1) := by
  intro cells
  induction cells with
  | nil => intro _ st h; simpa using h
  | cons ij cells ih =>
    intro hc st hst
    rw [List.foldl_cons]
    apply ih (fun a ha => hc a (List.mem_cons_of_mem _ ha))
    unfold lcsStep
    split
    · exact Or.inr ⟨ij.2, (hc ij (List.mem_cons_self _ _)).1,
        (hc ij (List.mem_cons_self _ _)).2, rfl⟩
    · exact hst

theorem mem_lcsCells {m n : Nat} {ij : Nat × Nat} (h : ij ∈ lcsCells m n) :
    1 ≤ ij.1 ∧ ij.1 ≤ m ∧ 1 ≤ ij.2 ∧ ij.2 ≤ n := by
  simp only [lcsCells, List.mem_flatMap, List.mem_map, List.mem_range] at h
  obtain ⟨i, hi, j, hj, hij⟩ := h
  rw [← hij]
  simp only []
  omega

theorem mem_lcsCells_of {m n i j : Nat}
    (h1 : 1 ≤ i) (h2 : i ≤ m) (h3 : 1 ≤ j) (h4 : j ≤ n) : (i, j) ∈ lcsCells m n := by
  simp only [lcsCells, List.mem_flatMap, List.mem_map, List.mem_range]
  refine ⟨i - 1, by omega, j - 1, by omega, ?_⟩
  have e1 : i - 1 + 1 = i := by omega
  have e2 : j - 1 + 1 = j := by omega
  rw [e1, e2]

theorem lcsScan_spec (s1 s2 : List Char) :
    (lcsScan s1 s2).1 = 0 ∨
      ∃ j, (lcsScan s1 s2).2 ≤ s1.length ∧ j ≤ s2.length ∧
        dpCell s1 s2 (lcsScan s1 s2).2 j = (lcsScan s1 s2).1 := by
  unfold lcsScan
  apply lcsScan_snd_inv
  · intro ij h
    have := mem_lcsCells h
    exact ⟨this.2.1, this.2.2.2⟩
  · exact Or.inl rfl

theorem seg_common (s1 s2 : List Char) (ep j ml : Nat)
    (hep : ep ≤ s1.length) (hj : j ≤ s2.length)
    (hdp : dpCell s1 s2 ep j = ml) :
    ((s1.drop (ep - ml)).take ml <:+: s1) ∧ ((s1.drop (ep - ml)).take ml <:+: s2) ∧
      ((s1.drop (ep - ml)).take ml).length = ml := by
  have hdle := dpCell_le s1 s2 ep j
  rw [hdp] at hdle
  have hseg : (s1.drop (ep - ml)).take ml = (s1.take ep).drop (ep - ml) := by
    rw [List.drop_take]
    congr 1
    omega
  have hseg2 := dpCell_suffix s1 s2 ep j hep hj
  rw [hdp] at hseg2
  refine ⟨?_, ?_, ?_⟩
  · exact ((List.take_prefix _ _).isInfix).trans ((List.drop_suffix _ _).isInfix)
  · rw [hseg, hseg2]
    exact ((List.drop_suffix _ _).isInfix).trans ((List.take_prefix _ _).isInfix)
  · rw [hseg, List.length_drop, List.length_take]
    have := Nat.min_eq_left hep
    omega

theorem lcs_infix_spec (s1 s2 : List Char) :
    longest_common_substring s1 s2 <:+: s1 ∧ longest_common_substring s1 s2 <:+: s2 ∧
      (longest_common_substring s1 s2).length = (lcsScan s1 s2).1 := by
  rcases Nat.eq_zero_or_pos (lcsScan s1 s2).1 with h0 | h0
  · unfold longest_common_substring
    rw [h0]
    simp
  · rcases lcsScan_spec s1 s2 with h | ⟨j, hep, hj, hdp⟩
    · omega
    have hmain := seg_common s1 s2 (lcsScan s1 s2).2 j (lcsScan s1 s2).1 hep hj hdp
    have hr : longest_common_substring s1 s2
        = (s1.drop ((lcsScan s1 s2).2 - (lcsScan s1 s2).1)).take (lcsScan s1 s2).1 := by
      unfold longest_common_substring
      rw [if_pos h0]
    rw [hr]
    exact hmain

theorem length_le_scan (s1 s2 : List Char) (t : List Char)
    (h1 : t <:+: s1) (h2 : t <:+: s2) : t.length ≤ (lcsScan s1 s2).1 := by
  by_cases hT : t = []
  · simp [hT]
  obtain ⟨u, v, hu⟩ := h1
  obtain ⟨w, x, hw⟩ := h2
  have hi : s1.take (u.length + t.length) = u ++ t := by
    have hs : s1 = (u ++ t) ++ v := by rw [← hu, List.append_assoc]
    have hl : u.length + t.length = (u ++ t).length := (List.length_append u t).symm
    rw [hs, hl, List.take_left]
  have hjq : s2.take (w.length + t.length) = w ++ t := by
    have hs : s2 = (w ++ t) ++ x := by rw [← hw, List.append_assoc]
    have hl : w.length + t.length = (w ++ t).length := (List.length_append w t).symm
    rw [hs, hl, List.take_left]
  have hsuf1 : t <:+ s1.take (u.length + t.length) := by
    rw [hi]
    exact List.suffix_append u t
  have hsuf2 : t <:+ s2.take (w.length + t.length) := by
    rw [hjq]
    exact List.suffix_append w t
  have hilen : u.length + t.length ≤ s1.length := by
    have : s1.length = u.length + t.length + v.length := by
      rw [← hu]
      simp [List.length_append]
      omega
    omega
  have hjlen : w.length + t.length ≤ s2.length := by
    have : s2.length = w.length + t.length + x.length := by
      rw [← hw]
      simp [List.length_append]
      omega
    omega
  have htpos : 0 < t.length := List.length_pos.mpr hT
  have hdp := dpCell_max s1 s2 (u.length + t.length) (w.length + t.length)
    hilen hjlen t hsuf1 hsuf2
  have hmem : (u.length + t.length, w.length + t.length) ∈ lcsCells s1.length s2.length :=
    mem_lcsCells_of (by omega) hilen (by omega) hjlen
  have hfold : dpCell s1 s2 (u.length + t.length) (w.length + t.length)
      ≤ (lcsCells s1.length s2.length).foldl
          (fun m ij => max m (dpCell s1 s2 ij.1 ij.2)) 0 :=
    le_foldl_max_mem (fun ij => dpCell s1 s2 ij.1 ij.2)
      (lcsCells s1.length s2.length) 0 _ hmem
  have hscan : (lcsScan s1 s2).1
      = (lcsCells s1.length s2.length).foldl
          (fun m ij => max m (dpCell s1 s2 ij.1 ij.2)) 0 := by
    unfold lcsScan
    rw [lcsScan_fst_eq]
  omega

/-- C1: `longest_common_substring a b` is a contiguous substring of
both `a` and `b`, of maximal length among all common contiguous
substrings; its length is `0` iff `a` and `b` share no character; and
the lengths for `(a, b)` and `(b, a)` agree. -/
theorem longest_common_substring_correct (a b : List Char) :
    (longest_common_substring a b <:+: a) ∧
    (longest_common_substring a b <:+: b) ∧
    (∀ t : List Char, t <:+: a → t <:+: b →
        t.length ≤ (longest_common_substring a b).length) ∧
    ((longest_common_substring a b).length = 0 ↔ ∀ c ∈ a, c ∉ b) ∧
    (longest_common_substring b a).length = (longest_common_substring a b).length := by
  obtain ⟨hia, hib, hlen⟩ := lcs_infix_spec a b
  obtain ⟨hib', hia', hlen'⟩ := lcs_infix_spec b a
  have hmax : ∀ t : List Char, t <:+: a → t <:+: b →
      t.length ≤ (longest_common_substring a b).length := by
    intro t g1 g2
    rw [hlen]
    exact length_le_scan a b t g1 g2
  have hmax' : ∀ t : List Char, t <:+: b → t <:+: a →
      t.length ≤ (longest_common_substring b a).length := by
    intro t g1 g2
    rw [hlen']
    exact length_le_scan b a t g1 g2
  refine ⟨hia, hib, hmax, ⟨?_, ?_⟩, ?_⟩
  · intro hz c hca hcb
    have gca : [c] <:+: a := by
      obtain ⟨s, t, hst⟩ := List.append_of_mem hca
      exact ⟨s, t, by rw [hst]; simp⟩
    have gcb : [c] <:+: b := by
      obtain ⟨s, t, hst⟩ := List.append_of_mem hcb
      exact ⟨s, t, by rw [hst]; simp⟩
    have := hmax [c] gca gcb
    rw [hz] at this
    simp at this
  · intro hnone
    by_contra hz
    obtain ⟨c, hc⟩ := List.exists_mem_of_ne_nil (longest_common_substring a b)
      (fun hn => hz (by rw [hn]; rfl))
    exact hnone c (hia.subset hc) (hib.subset hc)
  · exact le_antisymm (hmax _ hia' hib') (hmax' _ hib hia)

/-- Witness for C1's maximality clause at a concrete common substring. -/
theorem longest_common_substring_correct_witness :
    ("b".data).length ≤ (longest_common_substring "ab".data "bc".data).length :=
  (longest_common_substring_correct "ab".data "bc".data).2.2.1 "b".data
    ⟨['a'], [], rfl⟩ ⟨[], ['c'], rfl⟩

/-! ### The qualifying set of `find_similar_phrases` (claims C2, C7) -/

theorem msgLoopGrows (pws : List (List Char)) (p : List Char) :
    ∀ (ws matched : List (List Char)), matched <+: msgLoop pws p ws matched := by
  intro ws
  induction ws with
  | nil => intro matched; exact List.prefix_refl _
  | cons w ws ih =>
    intro matched
    simp only [msgLoop]
    have key : ∀ m' : List (List Char), matched <+: m' →
        matched <+: (if p ∈ m' then m' else msgLoop pws p ws m') := by
      intro m' hpre
      split
      · exact hpre
      · exact hpre.trans (ih m')
    apply key
    split
    · exact ⟨[p], rfl⟩
    · exact List.prefix_refl _

theorem msgLoop_ne_nil (pws : List (List Char)) (p : List Char) :
    ∀ (ws matched : List (List Char)),
      (∃ w ∈ ws, pws.any (fun pw => hit w pw) = true) →
      msgLoop pws p ws matched ≠ [] := by
  intro ws
  induction ws with
  | nil => intro matched h; simp at h
  | cons w ws ih =>
    intro matched h
    simp only [msgLoop]
    by_cases hw : pws.any (fun pw => hit w pw) = true
    · rw [if_pos hw,
        if_pos (List.mem_append_right matched (List.mem_singleton.mpr rfl))]
      simp
    · rw [if_neg hw]
      split
      · exact List.ne_nil_of_mem (by assumption)
      · apply ih
        rcases h with ⟨w', hw', hh⟩
        rcases List.mem_cons.mp hw' with rfl | hmem
        · exact absurd hh hw
        · exact ⟨w', hmem, hh⟩

theorem foldl_msgLoop_ne_nil (message : List Char) :
    ∀ (phrases acc : List (List Char)), acc ≠ [] →
      phrases.foldl (fun matched phrase =>
        msgLoop (cleanWords phrase) phrase (cleanWords message) matched) acc ≠ [] := by
  intro phrases
  induction phrases with
  | nil => intro acc h; simpa using h
  | cons q phrases ih =>
    intro acc h
    rw [List.foldl_cons]
    apply ih
    intro hc
    have hpre := msgLoopGrows (cleanWords q) q (cleanWords message) acc
    rw [hc] at hpre
    exact h (List.prefix_nil.mp hpre)

theorem findMatched_ne_nil (message p : List Char) (phrases : List (List Char))
    (hp : p ∈ phrases)
    (hhit : ∃ w ∈ cleanWords message, (cleanWords p).any (fun pw => hit w pw) = true) :
    findMatched message phrases ≠ [] := by
  obtain ⟨l1, l2, rfl⟩ := List.append_of_mem hp
  unfold findMatched
  rw [List.foldl_append, List.foldl_cons]
  exact foldl_msgLoop_ne_nil message l2 _
    (msgLoop_ne_nil (cleanWords p) p (cleanWords message) _ hhit)

/-- C2: whenever the chat's corpus holds the phrase "hello world"
(as `/learn hello world` stores it), a message "hello" produces a
non-empty qualifying set `matched_phrases` in `find_similar_phrases`
— an exact word match scores 100% ≥ 80% under the hit test — so the
call returns a phrase rather than `None`. -/
theorem hello_world_qualifies (fileText : List Char)
    (h : "hello world".data ∈ corpusPhrases (splitOnNl fileText)) :
    hit "hello".data "hello".data = true ∧
    findMatched "hello".data (corpusPhrases (splitOnNl fileText)) ≠ [] ∧
    find_similar_phrases "hello".data (some fileText) ≠ none := by
  have hkey : ∃ w ∈ cleanWords "hello".data,
      (cleanWords "hello world".data).any (fun pw => hit w pw) = true := by decide
  have hm := findMatched_ne_nil "hello".data "hello world".data _ h hkey
  refine ⟨by decide, hm, ?_⟩
  have c1 : ¬((corpusPhrases (splitOnNl fileText)).isEmpty = true) := by
    rw [List.isEmpty_iff]
    exact List.ne_nil_of_mem h
  have c2 : ¬((findMatched "hello".data (corpusPhrases (splitOnNl fileText))).isEmpty
      = true) := by
    rw [List.isEmpty_iff]
    exact hm
  simp only [find_similar_phrases]
  rw [if_neg c1, if_neg c2]
  simp

/-- Witness for C2 at the one-line corpus written by `/learn hello world`. -/
theorem hello_world_qualifies_witness :
    find_similar_phrases "hello".data (some "hello world\n".data) ≠ none :=
  (hello_world_qualifies "hello world\n".data (by decide)).2.2

/-- C7: appending one more phrase to the chat's corpus can only add
phrases to the qualifying set of `find_similar_phrases` for a given
message, never remove one that already qualified. -/
theorem matched_monotone (message p q : List Char) (phrases : List (List Char))
    (h : q ∈ findMatched message phrases) :
    q ∈ findMatched message (phrases ++ [p]) := by
  unfold findMatched at h ⊢
  rw [List.foldl_append, List.foldl_cons, List.foldl_nil]
  exact (msgLoopGrows (cleanWords p) p (cleanWords message) _).subset h

/-- Witness for C7: a qualifying phrase survives appending "zzz". -/
theorem matched_monotone_witness :
    "hello world".data ∈ findMatched "hello".data (["hello world".data] ++ ["zzz".data]) :=
  matched_monotone "hello".data "zzz".data "hello world".data ["hello world".data]
    (by decide)

/-! ### `extract_message_info` on group chats (claim C3) -/

/-- C3: on every update carrying a text message whose chat type is
"group" or "supergroup", `extract_message_info` raises
`UnboundLocalError` (line 139 reads `first_name`/`last_name`, which
only the private branch assigns) instead of returning the tuple, so no
group or supergroup message is ever routed or replied to. -/
theorem group_message_unbound_local (u : UpdateObj) (m : MessageObj) (t : List Char)
    (hm : u.message = some m) (ht : m.text = some t)
    (hty : m.chat.ctype = some "group".data ∨ m.chat.ctype = some "supergroup".data) :
    extract_message_info u = .error .unboundLocal := by
  rcases hty with h | h <;> simp [extract_message_info, hm, ht, h]

/-- Witness for C3 at a concrete group update. -/
theorem group_message_unbound_local_witness :
    extract_message_info
        ⟨1, some ⟨⟨5, some "group".data, some "G".data⟩, none, some "hi".data⟩⟩
      = .error .unboundLocal :=
  group_message_unbound_local _ _ "hi".data rfl rfl (Or.inl rfl)

/-! ### `get_updates` cursor behaviour (claim C8) -/

/-- C8: `get_updates` always requests updates strictly after the
cursor (`offset + 1`); on success with a non-empty result it returns
the updates and advances the cursor to the last update's `update_id`;
on a transport failure (network error / non-2xx status, or a malformed
body) it returns `None` and leaves the cursor unchanged. -/
theorem get_updates_spec (offset : Int) (resp : HttpResult) :
    (get_updates offset resp).requestedOffset = offset + 1 ∧
    (∀ body : ApiBody, resp = .success body → body.ok = true → body.result ≠ [] →
      (get_updates offset resp).ret = some body.result ∧
      ∃ last : UpdateRec, body.result.getLast? = some last ∧
        (get_updates offset resp).newOffset = last.update_id) ∧
    ((resp = .requestError ∨ resp = .jsonError) →
      (get_updates offset resp).ret = none ∧
      (get_updates offset resp).newOffset = offset) := by
  refine ⟨?_, ?_, ?_⟩
  · cases resp with
    | requestError => rfl
    | jsonError => rfl
    | success body =>
      simp only [get_updates]
      split <;> rfl
  · intro body hb hok hne
    subst hb
    simp only [get_updates]
    have hcond : body.ok = true ∧ ¬(body.result.isEmpty = true) := by
      refine ⟨hok, ?_⟩
      rw [List.isEmpty_iff]
      exact hne
    rw [if_pos hcond]
    refine ⟨rfl, ?_⟩
    cases hl : body.result.getLast? with
    | none => exact absurd (List.getLast?_eq_none_iff.mp hl) hne
    | some last => exact ⟨last, rfl, by simp [hl]⟩
  · intro h
    rcases h with rfl | rfl <;> exact ⟨rfl, rfl⟩

/-- Witness for C8: a successful poll with one update, and a failure. -/
theorem get_updates_spec_witness :
    (get_updates 7 (.success ⟨true, [⟨9⟩]⟩)).requestedOffset = 8 ∧
    (get_updates 7 (.success ⟨true, [⟨9⟩]⟩)).ret = some [⟨9⟩] ∧
    (get_updates 7 (.success ⟨true, [⟨9⟩]⟩)).newOffset = 9 ∧
    (get_updates 7 .requestError).ret = none ∧
    (get_updates 7 .requestError).newOffset = 7 := by
  have h0 := (get_updates_spec 7 (.success ⟨true, [⟨9⟩]⟩)).1
  have h1 := (get_updates_spec 7 (.success ⟨true, [⟨9⟩]⟩)).2.1
    ⟨true, [⟨9⟩]⟩ rfl rfl (by decide)
  have h2 := (get_updates_spec 7 .requestError).2.2 (Or.inl rfl)
  obtain ⟨hr, last, hl, hn⟩ := h1
  have h9 : ([⟨9⟩] : List UpdateRec).getLast? = some ⟨9⟩ := rfl
  rw [h9] at hl
  have hlast : last = ⟨9⟩ := (Option.some.inj hl).symm
  exact ⟨h0, hr, by rw [hn, hlast], h2.1, h2.2⟩

/-! ### single-instance lock at startup (claim C9) -/

/-- C9: with an existing lock file recording a live process id, `run`
refuses to start (it returns before writing the lock or polling); with
a stale lock file (dead process), it proceeds and overwrites the lock
with the current process id. -/
theorem runStartup_lock (env : StartupEnv) (content : List Char)
    (hex : env.lockExists = true) (hread : env.lockRead = .ok content) :
    (env.isAlive (pyStrip content) = true → runStartup env = .refusedAlreadyRunning) ∧
    (env.isAlive (pyStrip content) = false → env.lockWriteOk = true →
      runStartup env = .polling env.curPid) := by
  constructor
  · intro halive
    have hc : (env.lockExists && lockAliveCheck env) = true := by
      unfold lockAliveCheck
      rw [hex, hread]
      simpa using halive
    unfold runStartup
    rw [if_pos hc]
  · intro hdead hw
    have hc : (env.lockExists && lockAliveCheck env) = false := by
      unfold lockAliveCheck
      rw [hread]
      simp [hdead]
    unfold runStartup
    rw [if_neg (by rw [hc]; simp), if_pos hw]

/-- Witness for C9: a live pid refuses, a dead pid proceeds and the
lock ends up holding the current pid. -/
theorem runStartup_lock_witness :
    runStartup ⟨true, .ok " 12\n".data, fun p => p == "12".data, "99".data, true⟩
      = .refusedAlreadyRunning ∧
    runStartup ⟨true, .ok "12".data, fun _ => false, "99".data, true⟩
      = .polling "99".data :=
  ⟨(runStartup_lock _ " 12\n".data rfl rfl).1 (by decide),
   (runStartup_lock _ "12".data rfl rfl).2 rfl rfl⟩

/-! ### `learn_phrase` key sanitization (claim C4) -/

theorem replaceAllGo_single (a : Char) :
    ∀ (fuel : Nat) (s : List Char), s.length ≤ fuel →
      replaceAllGo [a] fuel s = s.filter (fun c => !(c == a)) := by
  intro fuel
  induction fuel with
  | zero =>
    intro s h
    have hs : s = [] := List.eq_nil_of_length_eq_zero (by omega)
    simp [hs, replaceAllGo]
  | succ fuel ih =>
    intro s h
    cases s with
    | nil => simp [replaceAllGo]
    | cons c rest =>
      have hlen : rest.length ≤ fuel := by
        simp only [List.length_cons] at h
        omega
      simp only [replaceAllGo]
      by_cases hc : c = a
      · have hp : [a] <+: c :: rest := by
          rw [hc]
          exact ⟨rest, rfl⟩
        have hdrop : (c :: rest).drop ([a] : List Char).length = rest := rfl
        rw [if_pos hp, hdrop, ih rest hlen]
        subst hc
        simp [List.filter_cons]
      · have hp : ¬([a] <+: c :: rest) := by
          intro hcon
          obtain ⟨t, ht⟩ := hcon
          exact hc (List.cons.inj ht).1.symm
        rw [if_neg hp, ih rest hlen]
        simp [List.filter_cons, hc]

theorem replaceAll_single (a : Char) (s : List Char) :
    replaceAll [a] s = s.filter (fun c => !(c == a)) := by
  unfold replaceAll
  rw [if_neg (by simp)]
  exact replaceAllGo_single a s.length s le_rfl

/-- Counterexample to C4: the key actually used keeps `'!'` (outside
the claimed allow-list) and drops `'-'` (inside it), so it differs from
the claimed allow-list sanitization. -/
theorem learnKey_ne_spec :
    learnKey "a!b-9".data = "a!b9".data ∧
    specLearnKey "a!b-9".data = "ab-9".data ∧
    learnKey "a!b-9".data ≠ specLearnKey "a!b-9".data := by decide

/-- C4 as amended: `learn_phrase` (and `find_similar_phrases`, which
uses the same `learnKey`) derives the corpus key by deleting exactly
the characters `'+'` and `'-'` from the chat key, keeping every other
character, and an empty result is used as-is — there is no "unknown"
sentinel. -/
theorem learnKey_spec (s : List Char) :
    learnKey s = s.filter (fun c => !(c == '+' || c == '-')) ∧
    (∀ c : Char, c ∈ learnKey s ↔ c ∈ s ∧ c ≠ '+' ∧ c ≠ '-') ∧
    ((∀ c ∈ s, c = '+' ∨ c = '-') → learnKey s = []) := by
  have h1 : learnKey s = s.filter (fun c => !(c == '+' || c == '-')) := by
    unfold learnKey
    rw [replaceAll_single, replaceAll_single, List.filter_filter]
    apply List.filter_congr
    intro a _
    cases ha : a == '+' <;> cases hb : a == '-' <;> simp [ha, hb]
  refine ⟨h1, ?_, ?_⟩
  · intro c
    rw [h1, List.mem_filter]
    simp
  · intro hall
    rw [h1, List.filter_eq_nil_iff]
    intro a ha
    rcases hall a ha with rfl | rfl <;> simp

/-- Witness for C4 as amended: an all-`'+'`/`'-'` key becomes empty,
with no sentinel substituted. -/
theorem learnKey_spec_witness : learnKey "+-".data = [] :=
  (learnKey_spec "+-".data).2.2 (by decide)

/-! ### `learn_phrase` corpus effect (claims C5, C10) -/

theorem replaceAllGo_eq_self (pat : List Char) :
    ∀ (fuel : Nat) (s : List Char), ¬(pat <:+: s) → replaceAllGo pat fuel s = s := by
  intro fuel
  induction fuel with
  | zero => intro s _; cases s <;> rfl
  | succ fuel ih =>
    intro s h
    cases s with
    | nil => rfl
    | cons c rest =>
      have hrest : ¬(pat <:+: rest) :=
        fun hi => h (hi.trans (List.suffix_cons c rest).isInfix)
      simp only [replaceAllGo]
      rw [if_neg (fun hp => h hp.isInfix), ih rest hrest]

theorem replaceAll_eq_self (pat s : List Char) (h : ¬(pat <:+: s)) :
    replaceAll pat s = s := by
  unfold replaceAll
  split
  · rfl
  · exact replaceAllGo_eq_self pat s.length s h

theorem pyStrip_eq_nil (s : List Char) (h : ∀ c ∈ s, isPySpace c = true) :
    pyStrip s = [] := by
  unfold pyStrip
  rw [List.dropWhile_eq_nil_iff.mpr h]
  rfl

theorem ws_not_infix_learn (w : List Char) (h : ∀ c ∈ w, isPySpace c = true) :
    ¬("/learn".data <:+: w) := by
  intro hc
  have hmem : '/' ∈ w := hc.subset (by decide)
  have := h '/' hmem
  simp [isPySpace] at this

/-- On a phrase that is whitespace-only, `learn_phrase` leaves the
corpus file untouched (shared by the C5 and C10 theorems). -/
theorem learn_phrase_ws (w : List Char) (file : Option (List Char))
    (hw : ∀ c ∈ w, isPySpace c = true) : learn_phrase w file = file := by
  unfold learn_phrase
  rw [replaceAll_eq_self _ _ (ws_not_infix_learn w hw),
    if_pos (List.isEmpty_iff.mpr (pyStrip_eq_nil w hw))]

/-- Counterexample to C5: for the phrase `"/learn"` the trimmed phrase
is non-empty, yet nothing is appended — line 162 first deletes every
occurrence of the substring `"/learn"` from the phrase. -/
theorem learn_phrase_verbatim_cex :
    learn_phrase "/learn".data (some "x\n".data) = some "x\n".data ∧
    pyStrip "/learn".data = "/learn".data ∧ "/learn".data ≠ [] := by decide

/-- C5 as amended: `learn_phrase` first deletes every occurrence of
the substring `"/learn"` from the phrase and then trims it; if the
result is non-empty it appends exactly that text as one entry at the
end of the corpus, otherwise — in particular for every whitespace-only
phrase — the corpus is unchanged.  For phrases that do not contain
`"/learn"`, this appends exactly the trimmed phrase, verbatim. -/
theorem learn_phrase_spec (phrase : List Char) (file : Option (List Char)) :
    ((∀ c ∈ phrase, isPySpace c = true) → learn_phrase phrase file = file) ∧
    (¬("/learn".data <:+: phrase) → pyStrip phrase ≠ [] →
      learn_phrase phrase file = some (file.getD [] ++ pyStrip phrase ++ ['\n'])) ∧
    (learn_phrase phrase file = file ∨
      ∃ p : List Char, p ≠ [] ∧ p = pyStrip (replaceAll "/learn".data phrase) ∧
        learn_phrase phrase file = some (file.getD [] ++ p ++ ['\n'])) := by
  refine ⟨learn_phrase_ws phrase file, ?_, ?_⟩
  · intro hni hne
    unfold learn_phrase
    rw [replaceAll_eq_self _ _ hni,
      if_neg (by rw [List.isEmpty_iff]; exact hne)]
  · unfold learn_phrase
    split
    · exact Or.inl rfl
    · rename_i hcond
      rw [List.isEmpty_iff] at hcond
      exact Or.inr ⟨_, hcond, rfl, rfl⟩

/-- Witness for C5 as amended at a plain phrase. -/
theorem learn_phrase_spec_witness : learn_phrase "hi".data none = some "hi\n".data :=
  ((learn_phrase_spec "hi".data none).2.1
    (by intro hc; have := hc.length_le; simp at this) (by decide)).trans (by decide)

/-! ### command routing (claims C6, C10) -/

/-- Counterexample to C6: the unrecognized command `"/foo"` is handed
to the similarity matcher (the `'/'` is stripped as punctuation) and,
with `"foo"` in the corpus, `process_message` returns a reply. -/
theorem unknown_command_reply_cex :
    (process_message "/foo".data (some "foo\n".data)).1
      = some (Reply.fromMatched ["foo".data]) ∧
    (process_message "/foo".data (some "foo\n".data)).1 ≠ none := by decide

/-- C6 as amended: a message starting with `'/'` whose first word
(case-insensitively) is none of `/help`, `/stop`, `/start`, and is not
`/learn` with an argument, falls through to the similarity matcher
exactly like free text: the reply is `None` iff the matcher finds no
qualifying phrase, and the corpus is unchanged. -/
theorem unknown_command_falls_through (message : List Char) (file : Option (List Char))
    (rest : List Char) (hm : message = '/' :: rest)
    (h1 : ((parts message).headD []).map Char.toLower ≠ "/help".data)
    (h2 : ((parts message).headD []).map Char.toLower ≠ "/stop".data)
    (h3 : ((parts message).headD []).map Char.toLower ≠ "/start".data)
    (h4 : ¬(((parts message).headD []).map Char.toLower = "/learn".data
            ∧ 1 < (parts message).length)) :
    process_message message file =
      (match find_similar_phrases message file with
       | none => (none, file)
       | some cands => (some (Reply.fromMatched cands), file)) := by
  subst hm
  simp only [process_message]
  rw [if_neg h1, if_neg h2, if_neg h3, if_neg h4]

/-- Witness for C6 as amended: `"/foo"` against an absent corpus file
gives no reply, via the matcher. -/
theorem unknown_command_falls_through_witness :
    process_message "/foo".data none = (none, none) :=
  (unknown_command_falls_through "/foo".data none "foo".data rfl
    (by decide) (by decide) (by decide) (by decide)).trans (by decide)

/-- Counterexample to C10: `"/learn\t"` has a whitespace-only
remainder after `/learn`, but `split(' ', 1)` only splits on a space,
so the command token is `"/learn\t"`, no confirmation is sent, and the
message goes to the matcher instead (here: no reply). -/
theorem learn_whitespace_tab_cex :
    (∀ c ∈ "\t".data, isPySpace c = true) ∧
    (process_message "/learn\t".data none).1 = none ∧
    (process_message "/learn\t".data none).1
      ≠ some (Reply.fixed "Phrase learned!".data) := by decide

/-- C10 as amended: for every message made of `"/learn"`, a space, and
a whitespace-only remainder, `process_message` returns the fixed
confirmation "Phrase learned!" even though `learn_phrase` stores
nothing and the corpus is unchanged — so the confirmation does not
imply a phrase was stored. -/
theorem learn_space_whitespace (w : List Char) (file : Option (List Char))
    (hw : ∀ c ∈ w, isPySpace c = true) :
    process_message ("/learn ".data ++ w) file
      = (some (Reply.fixed "Phrase learned!".data), file) := by
  have hmsg : "/learn ".data ++ w = '/' :: ("learn ".data ++ w) := rfl
  have hsplit : pySplitOnce ' ' ('/' :: ("learn ".data ++ w))
      = some ("/learn".data, w) := rfl
  have hparts : parts ('/' :: ("learn ".data ++ w)) = ["/learn".data, w] := by
    unfold parts
    rw [hsplit]
  rw [hmsg]
  simp only [process_message, hparts]
  have hcmd : ((["/learn".data, w].headD []).map Char.toLower) = "/learn".data := rfl
  have hlen : (["/learn".data, w] : List (List Char)).length = 2 := rfl
  rw [hcmd, hlen]
  rw [if_neg (by decide), if_neg (by decide), if_neg (by decide),
    if_pos ⟨rfl, by omega⟩]
  rw [show (["/learn".data, w].getD 1 []) = w from rfl, learn_phrase_ws w file hw]

/-- Witness for C10 as amended at the message `"/learn \t"`. -/
theorem learn_space_whitespace_witness :
    process_message "/learn \t".data none
      = (some (Reply.fixed "Phrase learned!".data), none) :=
  (show process_message "/learn \t".data none
      = process_message ("/learn ".data ++ "\t".data) none from rfl).trans
    (learn_space_whitespace "\t".data none (by decide))

end Telebot
